import Mathlib

/-!
Shallow embedding of the chunking / embedding-pipeline engine of
`improved_chunk_textbook.py` (class `TextbookChunker`), together with
proofs and refutations of the specified properties.

Strings are modelled by Lean `String` (a wrapper around `List Char`);
the character-level regular-expression operations of the source are
translated into executable structural recursions on `List Char`.
-/

set_option maxHeartbeats 1000000
set_option maxRecDepth 4000

namespace AIGrading

/-- Whitespace characters, modelling Python's `\s` on the ASCII range:
space, tab, newline, carriage return, vertical tab, form feed. -/
def isWs (c : Char) : Bool :=
  c = ' ' || c = '\t' || c = '\n' || c = '\r' || c = '\x0b' || c = '\x0c'

/-- Decimal digits, modelling Python's `\d` (ASCII). -/
def isDigitC (c : Char) : Bool :=
  '0' ≤ c && c ≤ '9'

/-- Word characters, modelling Python's `\w` (ASCII model): letters, digits, underscore. -/
def isWordC (c : Char) : Bool :=
  ('a' ≤ c && c ≤ 'z') || ('A' ≤ c && c ≤ 'Z') || isDigitC c || c = '_'

/-- Characters kept by the PDF-artifact filter
`re.sub(r"[^\w\s\.\,\;\:\!\?\-\(\)\[\]\{\}\"\']", '', text)`:
word characters, whitespace, and the punctuation allow-list. -/
def isAllowedC (c : Char) : Bool :=
  isWordC c || isWs c ||
  c = '.' || c = ',' || c = ';' || c = ':' || c = '!' || c = '?' || c = '-' ||
  c = '(' || c = ')' || c = '[' || c = ']' || c = '\x7b' || c = '\x7d' ||
  c = '\x22' || c = '\x27'

/-- State machine for `re.sub(r'\s+', ' ', text)`: the flag records whether
we are inside a whitespace run whose first character was already emitted
as the single replacement space. -/
def collapseWsAux : Bool → List Char → List Char
  | _, [] => []
  | afterWs, c :: cs =>
    if isWs c then
      if afterWs then collapseWsAux true cs
      else ' ' :: collapseWsAux true cs
    else c :: collapseWsAux false cs

/-- `re.sub(r'\s+', ' ', text)`: every maximal run of whitespace becomes a single space. -/
def collapseWs (l : List Char) : List Char :=
  collapseWsAux false l

/-- Python `str.strip()`: remove leading and trailing whitespace. -/
def stripL (l : List Char) : List Char :=
  ((l.dropWhile isWs).reverse.dropWhile isWs).reverse

/-- Whether an entire (newline-free) string matches `^\d+\s*$`:
one or more digits followed by optional whitespace. -/
def isPageNumL (l : List Char) : Bool :=
  !(l.takeWhile isDigitC).isEmpty && (l.dropWhile isDigitC).all isWs

/-- `re.sub(r'^\d+\s*$', '', text, flags=re.MULTILINE)`.  `clean_text` applies
this after whitespace collapsing, whose output never contains a newline, so
`^` and `$` can only match the ends of the whole string: the substitution
empties the string when it is entirely one page number, and otherwise leaves
it unchanged. -/
def removePageNums (l : List Char) : List Char :=
  if isPageNumL l then [] else l

/-- `TextbookChunker.clean_text`: collapse whitespace runs, drop page-number
lines, strip characters outside the allow-list, and trim. -/
def clean_text (s : String) : String :=
  ⟨stripL ((removePageNums (collapseWs s.data)).filter isAllowedC)⟩

example : clean_text "a @ b" = "a  b" := by decide
example : clean_text "a  b" = "a b" := by decide
example : clean_text "123" = "" := by decide
example : clean_text " 12" = "12" := by decide

/-! ### Token counter -/

/-- Word-count state machine; the flag records whether the previous
character belonged to a word. -/
def wordCountAux : Bool → List Char → Nat
  | _, [] => 0
  | inw, c :: cs =>
    if isWs c then wordCountAux false cs
    else (if inw then 0 else 1) + wordCountAux true cs

/-- Token counter (`TextbookChunker.count_tokens`).  The source counts
tokens with tiktoken's `cl100k_base` encoder
(`len(self.tokenizer.encode(text))`), an external library outside this
repository; we model it as the number of maximal non-whitespace runs
(whitespace-separated words), a deterministic counter with the additivity
behaviour over space-joins that the chunker relies on. -/
def count_tokens (s : String) : Nat :=
  wordCountAux false s.data

/-! ### Sentence and word splitting -/

/-- Sentence-terminal punctuation of the regex `(?<=[.!?])\s+`. -/
def isSentEnd (c : Char) : Bool :=
  c = '.' || c = '!' || c = '?'

/-- State machine for `re.split(r'(?<=[.!?])\s+', text)`: `skipping` records
that we are inside the whitespace run of a separator (already consumed
greedily), `cur` holds the current piece reversed. -/
def sentGo (skipping : Bool) (cur : List Char) : List Char → List (List Char)
  | [] => [cur.reverse]
  | c :: cs =>
    if skipping && isWs c then sentGo true cur cs
    else if isWs c && (match cur with | p :: _ => isSentEnd p | [] => false) then
      cur.reverse :: sentGo true [] cs
    else sentGo false (c :: cur) cs

/-- `re.split(r'(?<=[.!?])\s+', text)`. -/
def splitSentences (s : String) : List String :=
  (sentGo false [] s.data).map fun l => ⟨l⟩

/-- Python `str.split()` with no arguments: split on whitespace runs,
dropping empty pieces. -/
def wordsGo (cur : List Char) : List Char → List (List Char)
  | [] => if cur.isEmpty then [] else [cur.reverse]
  | c :: cs =>
    if isWs c then
      if cur.isEmpty then wordsGo [] cs else cur.reverse :: wordsGo [] cs
    else wordsGo (c :: cur) cs

/-- Python `str.split()`. -/
def pyWords (s : String) : List String :=
  (wordsGo [] s.data).map fun l => ⟨l⟩

/-- Python `str.strip()` on `String`. -/
def stripS (s : String) : String :=
  ⟨stripL s.data⟩

/-! ### Configuration constants from `TextbookChunker.__init__` -/

def maxTokens : Nat := 512
def overlapTokens : Nat := 50
def minChunkTokens : Nat := 50
def maxChunkTokens : Nat := 800
def batchSize : Nat := 96

/-! ### Overlap constructor -/

/-- Inner word loop of `create_intelligent_overlap`: walk the words of the
first non-fitting sentence from the end, prepending whole words while the
running token total stays within budget; stop at the first word that does
not fit.  Returns the accumulated overlap text and token count. -/
def overlapWordsGo (k : Nat) : List String → String → Nat → String × Nat
  | [], acc, cnt => (acc, cnt)
  | w :: ws, acc, cnt =>
    if cnt + count_tokens (w ++ " ") ≤ k then
      overlapWordsGo k ws (w ++ " " ++ acc) (cnt + count_tokens (w ++ " "))
    else (acc, cnt)

/-- Sentence loop of `create_intelligent_overlap`: walk sentences from the
end, prepending whole sentences while they fit; at the first sentence that
does not fit, fall back to its words and stop. -/
def overlapSentGo (k : Nat) : List String → String → Nat → String
  | [], acc, _ => acc
  | s :: ss, acc, cnt =>
    if cnt + count_tokens s ≤ k then
      overlapSentGo k ss (s ++ " " ++ acc) (cnt + count_tokens s)
    else (overlapWordsGo k (pyWords s).reverse acc cnt).1

/-- `TextbookChunker.create_intelligent_overlap` with overlap budget `k`
(the instance attribute `overlap_tokens`). -/
def create_intelligent_overlap (k : Nat) (text : String) : String :=
  if count_tokens text ≤ k then text
  else stripS (overlapSentGo k (splitSentences text).reverse "" 0)

example : count_tokens "hello  world " = 2 := by decide
example : splitSentences "A b. C d! E" = ["A b.", "C d!", "E"] := by decide
example : pyWords " a bc  d " = ["a", "bc", "d"] := by decide
example : create_intelligent_overlap 2 "Aa bb cc. Dd ee ff gg." = "ff gg." := by decide
example : create_intelligent_overlap 3 "Aa bb. Cc dd. Ee ff gg hh" = "ff gg hh" := by decide
example : create_intelligent_overlap 5 "Aa bb. Cc dd. Ee ff gg hh" = "dd. Ee ff gg hh" := by decide
example : create_intelligent_overlap 9 "Aa bb. Cc dd. Ee ff gg hh" = "Aa bb. Cc dd. Ee ff gg hh" := by decide

/-! ### Arithmetic of the token counter -/

theorem data_append (a b : String) : (a ++ b).data = a.data ++ b.data := by
  cases a; cases b; rfl

theorem wordCountAux_append_sp (a b : List Char) (f : Bool) :
    wordCountAux f (a ++ ' ' :: b) = wordCountAux f a + wordCountAux false b := by
  induction a generalizing f with
  | nil => simp [wordCountAux, isWs]
  | cons c cs ih =>
    by_cases h : isWs c = true
    · simp [wordCountAux, h, ih]
    · simp [wordCountAux, h, ih]
      omega

theorem wordCountAux_all_ws (t : List Char) (f : Bool) (h : ∀ c ∈ t, isWs c = true) :
    wordCountAux f t = 0 := by
  induction t generalizing f with
  | nil => rfl
  | cons c cs ih =>
    have hc : isWs c = true := h c (List.mem_cons_self c cs)
    simp [wordCountAux, hc, ih _ fun d hd => h d (List.mem_cons_of_mem c hd)]

theorem wordCountAux_append_ws (a t : List Char) (f : Bool) (h : ∀ c ∈ t, isWs c = true) :
    wordCountAux f (a ++ t) = wordCountAux f a := by
  induction a generalizing f with
  | nil => simpa using wordCountAux_all_ws t f h
  | cons c cs ih =>
    by_cases hc : isWs c = true
    · simp [wordCountAux, hc, ih]
    · simp [wordCountAux, hc, ih]

theorem wordCountAux_dropWhile (l : List Char) :
    wordCountAux false (l.dropWhile isWs) = wordCountAux false l := by
  induction l with
  | nil => rfl
  | cons c cs ih =>
    by_cases hc : isWs c = true
    · simpa [List.dropWhile, hc, wordCountAux] using ih
    · simp [List.dropWhile, hc]

theorem wordCount_stripL (l : List Char) :
    wordCountAux false (stripL l) = wordCountAux false l := by
  unfold stripL
  rw [← wordCountAux_dropWhile l]
  set m := l.dropWhile isWs with hm
  have hsplit : m = (m.reverse.dropWhile isWs).reverse ++ (m.reverse.takeWhile isWs).reverse := by
    conv_lhs => rw [← List.reverse_reverse m,
      ← List.takeWhile_append_dropWhile (p := isWs) (l := m.reverse)]
    rw [List.reverse_append]
  conv_rhs => rw [hsplit]
  rw [wordCountAux_append_ws]
  intro c hc
  exact List.mem_takeWhile_imp (List.mem_reverse.mp hc)

theorem count_tokens_stripS (s : String) :
    count_tokens (stripS s) = count_tokens s :=
  wordCount_stripL s.data

theorem count_tokens_sp_join (a b : String) :
    count_tokens (a ++ " " ++ b) = count_tokens a + count_tokens b := by
  unfold count_tokens
  rw [data_append, data_append]
  have h : (" " : String).data = [' '] := rfl
  rw [h, List.append_assoc, List.singleton_append]
  exact wordCountAux_append_sp a.data b.data false

theorem count_tokens_sp_end (a : String) :
    count_tokens (a ++ " ") = count_tokens a := by
  unfold count_tokens
  rw [data_append]
  exact wordCountAux_append_ws a.data [' '] false (by simp [isWs])

/-! ### The overlap bound (claim C2) -/

theorem overlapWordsGo_bound (k : Nat) :
    ∀ (ws : List String) (acc : String) (cnt : Nat),
      count_tokens acc = cnt → cnt ≤ k →
      count_tokens (overlapWordsGo k ws acc cnt).1 = (overlapWordsGo k ws acc cnt).2 ∧
        (overlapWordsGo k ws acc cnt).2 ≤ k
  | [], acc, cnt, hacc, hcnt => ⟨hacc, hcnt⟩
  | w :: ws, acc, cnt, hacc, hcnt => by
    by_cases hfit : cnt + count_tokens (w ++ " ") ≤ k
    · simp only [overlapWordsGo, hfit, if_pos]
      exact overlapWordsGo_bound k ws (w ++ " " ++ acc) (cnt + count_tokens (w ++ " "))
        (by rw [count_tokens_sp_join, count_tokens_sp_end, hacc]; omega) hfit
    · simp only [overlapWordsGo, hfit, if_neg, not_false_iff]
      exact ⟨hacc, hcnt⟩

theorem overlapSentGo_bound (k : Nat) :
    ∀ (ss : List String) (acc : String) (cnt : Nat),
      count_tokens acc = cnt → cnt ≤ k →
      count_tokens (overlapSentGo k ss acc cnt) ≤ k
  | [], acc, cnt, hacc, hcnt => by
    simpa [overlapSentGo, hacc] using hcnt
  | s :: ss, acc, cnt, hacc, hcnt => by
    by_cases hfit : cnt + count_tokens s ≤ k
    · simp only [overlapSentGo, hfit, if_pos]
      exact overlapSentGo_bound k ss (s ++ " " ++ acc) (cnt + count_tokens s)
        (by rw [count_tokens_sp_join, hacc]; omega) hfit
    · simp only [overlapSentGo, hfit, if_neg, not_false_iff]
      exact ((overlapWordsGo_bound k (pyWords s).reverse acc cnt hacc hcnt).1).le.trans
        (overlapWordsGo_bound k (pyWords s).reverse acc cnt hacc hcnt).2

/-- C2: for every chunk text and every overlap budget `k`, the text returned
by `create_intelligent_overlap` with `overlap_tokens = k` has a token count,
measured by the same token counter, of at most `k`. -/
theorem overlap_token_bound (k : Nat) (text : String) :
    count_tokens (create_intelligent_overlap k text) ≤ k := by
  unfold create_intelligent_overlap
  split
  · assumption
  · rw [count_tokens_stripS]
    exact overlapSentGo_bound k (splitSentences text).reverse "" 0 rfl (Nat.zero_le k)

/-! ### Chunk post-processing -/

/-- Loop of `TextbookChunker.post_process_chunks`; `acc` holds the accepted
chunks in reverse order (its head is `final_chunks[-1]`).  An in-range chunk
is appended; an undersized chunk is merged into the previous accepted chunk
when one exists; everything else is dropped. -/
def ppGo : List String → List String → List String
  | acc, [] => acc.reverse
  | acc, c :: cs =>
    if minChunkTokens ≤ count_tokens c ∧ count_tokens c ≤ maxChunkTokens then
      ppGo (c :: acc) cs
    else
      match acc with
      | [] => ppGo [] cs
      | a :: as =>
        if count_tokens c < minChunkTokens then ppGo ((a ++ " " ++ c) :: as) cs
        else ppGo (a :: as) cs

/-- `TextbookChunker.post_process_chunks`. -/
def post_process_chunks (chunks : List String) : List String :=
  ppGo [] chunks

/-! ### Paragraph splitting -/

/-- Scanner for `re.split(r'\n\s*\n', text)`.  `cur` holds the current piece
reversed; `run` holds a pending maximal whitespace run, reversed.  A pending
run produces a paragraph boundary exactly when it contains at least two
newlines: the leftmost match of `\n\s*\n` starts at the run's first newline
and, with `\s*` greedy, ends at its last newline, so the run's characters
before the first newline stay with the left piece and those after the last
newline start the right piece. -/
def paraGo (cur run : List Char) : List Char → List (List Char)
  | [] =>
    if 2 ≤ run.count '\n' then
      [cur.reverse ++ run.reverse.takeWhile (· != '\n'), (run.takeWhile (· != '\n')).reverse]
    else [(run ++ cur).reverse]
  | c :: cs =>
    if isWs c then paraGo cur (c :: run) cs
    else
      if 2 ≤ run.count '\n' then
        (cur.reverse ++ run.reverse.takeWhile (· != '\n')) ::
          paraGo (c :: run.takeWhile (· != '\n')) [] cs
      else paraGo (c :: (run ++ cur)) [] cs

/-- `re.split(r'\n\s*\n', text)`. -/
def splitParagraphs (s : String) : List String :=
  (paraGo [] [] s.data).map fun l => ⟨l⟩

example : splitParagraphs "a\n\nb" = ["a", "b"] := by decide
example : splitParagraphs "a\nb" = ["a\nb"] := by decide
example : splitParagraphs "a\t\n \n\tb c" = ["a\t", "\tb c"] := by decide
example : splitParagraphs "a\n\n" = ["a", ""] := by decide

/-! ### Segmenter: sentence regrouping of oversized paragraphs -/

/-- Sentence regrouping loop of `split_text_semantically` (the
`para_tokens > max_tokens * 2` branch): greedily pack sentences into groups
of at most `max_tokens` tokens. -/
def groupSentGo (acc : List String) (cur : String) (curTok : Nat) : List String → List String
  | [] => if stripS cur = "" then acc else acc ++ [stripS cur]
  | s :: ss =>
    if maxTokens < curTok + count_tokens s ∧ cur ≠ "" then
      groupSentGo (acc ++ [stripS cur]) s (count_tokens s) ss
    else
      groupSentGo acc (if cur = "" then s else cur ++ " " ++ s) (curTok + count_tokens s) ss

/-- The segmenter stage of `split_text_semantically`: paragraphs of the
cleaned text, trimmed and non-empty, with paragraphs above `2 * max_tokens`
tokens regrouped by sentences. -/
def processedParagraphs (cleaned : String) : List String :=
  (((splitParagraphs cleaned).map stripS).filter (· ≠ "")).flatMap fun para =>
    if maxTokens * 2 < count_tokens para then
      groupSentGo [] "" 0 (splitSentences para)
    else [para]

/-! ### Chunk assembly -/

/-- Chunk-assembly loop of `split_text_semantically` with overlap budget
`k`: greedily fill the current chunk; when a paragraph would overflow
`max_tokens`, flush the chunk and seed the next one with the overlap text. -/
def assembleGo (k : Nat) : List String → String → Nat → List String → List String
  | [], cur, _, acc => if stripS cur = "" then acc else acc ++ [stripS cur]
  | p :: ps, cur, curTok, acc =>
    if maxTokens < curTok + count_tokens p ∧ cur ≠ "" then
      assembleGo k ps (create_intelligent_overlap k cur ++ " " ++ p)
        (count_tokens (create_intelligent_overlap k cur ++ " " ++ p)) (acc ++ [stripS cur])
    else
      assembleGo k ps (if cur = "" then p else cur ++ " " ++ p) (curTok + count_tokens p) acc

/-- `TextbookChunker.split_text_semantically`: normalize, segment, assemble
with overlap, then post-process. -/
def split_text_semantically (text : String) : List String :=
  post_process_chunks
    (assembleGo overlapTokens (processedParagraphs (clean_text text)) "" 0 [])

example : split_text_semantically "" = [] := by decide
example : split_text_semantically "Short text." = [] := by decide

/-! ### Concrete test inputs -/

/-- `n + 1` copies of the letter `w` separated by single spaces, as a
character list; a document with exactly `n + 1` tokens. -/
def wRun : Nat → List Char
  | 0 => ['w']
  | n + 1 => 'w' :: ' ' :: wRun n

/-- `n + 1` space-separated single-letter words. -/
def wText (n : Nat) : String := ⟨wRun n⟩

theorem count_tokens_wText (n : Nat) : count_tokens (wText n) = n + 1 := by
  have hw : isWs 'w' = false := by decide
  have hs : isWs ' ' = true := by decide
  induction n with
  | zero => rfl
  | succ m ih =>
    show wordCountAux false (wRun (m + 1)) = m + 2
    rw [wRun]
    simp only [wordCountAux, hw, hs, if_false, if_true, Bool.false_eq_true]
    have : wordCountAux false (wRun m) = m + 1 := ih
    omega

/-! ### Claim C1: the undersized first chunk is dropped, not kept -/

/-- C1 counterexample: a document of one 40-token paragraph with
`min_chunk_tokens = 50` is dropped by `post_process_chunks` — with no
previously accepted chunk, the merge branch is unreachable and the
undersized chunk is neither kept nor merged — so the pipeline yields zero
chunks, not one chunk containing the paragraph. -/
theorem first_chunk_below_min_dropped_cex :
    count_tokens (String.intercalate " " (List.replicate 40 "word")) = 40 ∧
    minChunkTokens = 50 ∧
    post_process_chunks [String.intercalate " " (List.replicate 40 "word")] = [] ∧
    split_text_semantically (String.intercalate " " (List.replicate 40 "word")) = [] :=
  ⟨by decide, rfl, by decide, by decide⟩

/-- C1 amended: when the very first chunk's token count is below
`min_chunk_tokens`, `post_process_chunks` silently drops it (the output is
exactly the post-processing of the remaining chunks); in particular a
document consisting of a single 40-token paragraph yields zero chunks. -/
theorem post_process_drops_undersized_first (c : String) (cs : List String)
    (h : count_tokens c < minChunkTokens) :
    post_process_chunks (c :: cs) = post_process_chunks cs := by
  unfold post_process_chunks
  simp only [ppGo]
  rw [if_neg (by omega)]

theorem post_process_drops_undersized_first_witness :
    count_tokens "tiny chunk" < minChunkTokens ∧
    post_process_chunks ["tiny chunk"] = post_process_chunks [] :=
  ⟨by decide, post_process_drops_undersized_first "tiny chunk" [] (by decide)⟩

/-! ### Claim C8: oversized chunks vanish from the post-processed output -/

theorem ppGo_oversized_skip (c : String) (h : maxChunkTokens < count_tokens c)
    (acc rest : List String) : ppGo acc (c :: rest) = ppGo acc rest := by
  have h50 : minChunkTokens = 50 := rfl
  have h800 : maxChunkTokens = 800 := rfl
  simp only [ppGo]
  rw [if_neg (by omega)]
  cases acc with
  | nil => rfl
  | cons a as =>
    show (if count_tokens c < minChunkTokens then ppGo ((a ++ " " ++ c) :: as) rest
      else ppGo (a :: as) rest) = ppGo (a :: as) rest
    rw [if_neg (by omega)]

/-- C8: `post_process_chunks` silently removes every chunk whose token count
exceeds `max_chunk_tokens`: such a chunk is neither kept nor merged into a
neighbour, and the output is exactly that of the chunk list with it deleted. -/
theorem post_process_removes_oversized (l1 : List String) (c : String) (l2 : List String)
    (h : maxChunkTokens < count_tokens c) :
    post_process_chunks (l1 ++ c :: l2) = post_process_chunks (l1 ++ l2) := by
  unfold post_process_chunks
  suffices H : ∀ acc, ppGo acc (l1 ++ c :: l2) = ppGo acc (l1 ++ l2) from H []
  induction l1 with
  | nil => intro acc; exact ppGo_oversized_skip c h acc l2
  | cons x xs ih =>
    intro acc
    simp only [List.cons_append, ppGo]
    split
    · exact ih _
    · split
      · exact ih _
      · split
        · exact ih _
        · exact ih _

theorem post_process_removes_oversized_witness :
    maxChunkTokens < count_tokens (wText 800) ∧
    post_process_chunks ["a b", wText 800] = post_process_chunks ["a b"] :=
  ⟨by rw [count_tokens_wText]; decide,
    post_process_removes_oversized ["a b"] (wText 800) []
      (by rw [count_tokens_wText]; decide)⟩

/-! ### Claim C9: the empty document -/

/-- C9: an input that normalizes to the empty string (in particular the
empty document) makes `split_text_semantically` return the empty chunk
sequence. -/
theorem split_text_empty_input (text : String) (h : clean_text text = "") :
    split_text_semantically text = [] := by
  unfold split_text_semantically
  rw [h]
  rfl

theorem split_text_empty_input_witness :
    clean_text "123" = "" ∧ split_text_semantically "123" = [] :=
  ⟨by decide, split_text_empty_input "123" (by decide)⟩

/-! ### Embedding retries (`generate_embedding`) -/

/-- Model of an embedding vector; the numeric contents are irrelevant to
the control flow (Python treats the empty vector as falsy, which the
pipeline model reproduces). -/
abbrev Emb := List Int

/-- `generate_embedding`'s retry loop, iterating over the remaining
attempt numbers (`for attempt in range(retries)`).  `svc attempt` is the
outcome of the service call on that attempt (`none` models a raised
exception).  Returns the final result, the number of service calls made,
and the back-off sleeps performed (`time.sleep(2 ** attempt)` after each
failed non-final attempt). -/
def genEmbedLoop (svc : Nat → Option Emb) (retries : Nat) :
    List Nat → Option Emb × Nat × List Nat
  | [] => (none, 0, [])
  | attempt :: rest =>
    match svc attempt with
    | some e => (some e, 1, [])
    | none =>
      if attempt < retries - 1 then
        let r := genEmbedLoop svc retries rest
        (r.1, r.2.1 + 1, 2 ^ attempt :: r.2.2)
      else (none, 1, [])

/-- `TextbookChunker.generate_embedding`: at most `retries` calls, a
successful call returns immediately, exhausted retries return `none`
rather than raising. -/
def generate_embedding (svc : Nat → Option Emb) (retries : Nat) :
    Option Emb × Nat × List Nat :=
  genEmbedLoop svc retries (List.range retries)

/-- A vector record as assembled by `process_textbook` (identifier,
embedding values, and the metadata fields the claims speak about). -/
structure Record where
  id : String
  values : Emb
  text : String
  chunk_index : Nat
  tokens : Nat
deriving DecidableEq

/-- The record identifier `f"textbook-chunk-{i}-{int(time.time())}"` for
chunk index `i` created at epoch second `t`. -/
def recordId (i t : Nat) : String :=
  "textbook-chunk-" ++ toString i ++ "-" ++ toString t

/-- The per-chunk embedding loop of `process_textbook`: `embed i` is the
service-outcome oracle for chunk `i`, `timeAt i` the epoch second at which
chunk `i`'s record is created.  Returns the record list and the
successful/failed counters.  A chunk whose embedding fails (or is empty —
Python falsiness) produces no record and increments the failure counter,
and processing continues with the next chunk. -/
def processChunksGo (embed : Nat → Nat → Option Emb) (timeAt : Nat → Nat) (retries : Nat) :
    Nat → List String → List Record × Nat × Nat
  | _, [] => ([], 0, 0)
  | i, c :: cs =>
    let rest := processChunksGo embed timeAt retries (i + 1) cs
    match (generate_embedding (embed i) retries).1 with
    | some e =>
      if e = [] then (rest.1, rest.2.1, rest.2.2 + 1)
      else ({ id := recordId i (timeAt i), values := e, text := c,
              chunk_index := i, tokens := count_tokens c } :: rest.1,
            rest.2.1 + 1, rest.2.2)
    | none => (rest.1, rest.2.1, rest.2.2 + 1)

/-- Outcome of one pipeline run, up to (but not including) the vector-store
upload. -/
structure RunResult where
  chunks : List String
  records : List Record
  successful : Nat
  failed : Nat
deriving DecidableEq

/-- `process_textbook` after text extraction: chunk the text, embed each
chunk (with the default `retries = 3`), and collect records and counters.
The ambient nondeterminism — embedding-service outcomes and the clock — is
passed in as oracles. -/
def process_textbook_run (embed : Nat → Nat → Option Emb) (timeAt : Nat → Nat)
    (text : String) : RunResult :=
  let chunks := split_text_semantically text
  let r := processChunksGo embed timeAt 3 0 chunks
  { chunks := chunks, records := r.1, successful := r.2.1, failed := r.2.2 }

/-! ### Batch persister -/

/-- The slicing loop `for i in range(0, len(records), batch_size)`: for
`batch_size ≥ 1` the `k`-th of `⌈len / batch_size⌉` batches is
`records[k * batch_size : (k + 1) * batch_size]`. -/
def toBatches (bs : Nat) (l : List α) : List (List α) :=
  (List.range ((l.length + bs - 1) / bs)).map fun k => (l.drop (k * bs)).take bs

/-- The upload loop of `process_textbook`: each batch is submitted inside
its own `try/except`, so a failing submission (oracle `submit` returning
`false`) is caught and the loop continues with the next batch.  Returns the
(batch index, outcome) of every submission attempted. -/
def uploadBatches (submit : Nat → Bool) : Nat → List (List α) → List (Nat × Bool)
  | _, [] => []
  | i, _ :: rest => (i, submit i) :: uploadBatches submit (i + 1) rest

/-! ### Claim C5: retry discipline of the embedding step -/

theorem genEmbedLoop_calls_le (svc : Nat → Option Emb) (retries : Nat) :
    ∀ l : List Nat, (genEmbedLoop svc retries l).2.1 ≤ l.length
  | [] => by simp [genEmbedLoop]
  | a :: rest => by
    have ih := genEmbedLoop_calls_le svc retries rest
    simp only [genEmbedLoop]
    cases hsvc : svc a with
    | some e => simp
    | none =>
      by_cases hlt : a < retries - 1
      · simp only [hlt, if_pos, List.length_cons]
        omega
      · simp [hlt]

theorem genEmbedLoop_calls_pos (svc : Nat → Option Emb) (retries : Nat)
    (a : Nat) (rest : List Nat) :
    1 ≤ (genEmbedLoop svc retries (a :: rest)).2.1 := by
  simp only [genEmbedLoop]
  cases hsvc : svc a with
  | some e => simp
  | none =>
    by_cases hlt : a < retries - 1
    · simp [hlt]
    · simp [hlt]

theorem genEmbedLoop_sleeps (svc : Nat → Option Emb) (retries : Nat) :
    ∀ n a, a + n = retries →
      (genEmbedLoop svc retries (List.range' a n)).2.2 =
        (List.range' a ((genEmbedLoop svc retries (List.range' a n)).2.1 - 1)).map
          (fun j => 2 ^ j)
  | 0, a, _ => by simp [genEmbedLoop]
  | n + 1, a, hret => by
    rw [List.range'_succ]
    simp only [genEmbedLoop]
    cases hsvc : svc a with
    | some e => simp
    | none =>
      by_cases hlt : a < retries - 1
      · have hn : n ≠ 0 := by omega
        have ih := genEmbedLoop_sleeps svc retries n (a + 1) (by omega)
        have hpos : 1 ≤ (genEmbedLoop svc retries (List.range' (a + 1) n)).2.1 := by
          cases hr : List.range' (a + 1) n with
          | nil => exact absurd (List.range'_eq_nil.mp hr) hn
          | cons x xs => rw [← hr]; rw [hr]; exact genEmbedLoop_calls_pos svc retries x xs
        simp only [hlt, if_pos]
        rw [ih]
        have hcalls : (genEmbedLoop svc retries (List.range' (a + 1) n)).2.1 + 1 - 1 =
            ((genEmbedLoop svc retries (List.range' (a + 1) n)).2.1 - 1) + 1 := by omega
        rw [hcalls, List.range'_succ, List.map_cons]
      · simp [hlt]

theorem genEmbedLoop_all_fail (svc : Nat → Option Emb) (retries : Nat)
    (hfail : ∀ j, svc j = none) :
    ∀ n a, a + n = retries →
      (genEmbedLoop svc retries (List.range' a n)).1 = none ∧
        (genEmbedLoop svc retries (List.range' a n)).2.1 = n
  | 0, a, _ => by simp [genEmbedLoop]
  | n + 1, a, hret => by
    rw [List.range'_succ]
    simp only [genEmbedLoop, hfail a]
    by_cases hlt : a < retries - 1
    · have ih := genEmbedLoop_all_fail svc retries hfail n (a + 1) (by omega)
      simp only [hlt, if_pos]
      exact ⟨ih.1, by omega⟩
    · have hn : n = 0 := by omega
      simp [hlt, hn]

theorem processChunksGo_counts (embed : Nat → Nat → Option Emb) (timeAt : Nat → Nat)
    (retries : Nat) : ∀ (i : Nat) (chunks : List String),
      (processChunksGo embed timeAt retries i chunks).2.1 +
          (processChunksGo embed timeAt retries i chunks).2.2 = chunks.length ∧
        (processChunksGo embed timeAt retries i chunks).1.length =
          (processChunksGo embed timeAt retries i chunks).2.1
  | _, [] => by simp [processChunksGo]
  | i, c :: cs => by
    have ih := processChunksGo_counts embed timeAt retries (i + 1) cs
    simp only [processChunksGo]
    cases (generate_embedding (embed i) retries).1 with
    | some e =>
      by_cases he : e = []
      · simp only [he, if_pos, List.length_cons]
        omega
      · simp only [he, if_neg, not_false_iff, List.length_cons]
        omega
    | none =>
      simp only [List.length_cons]
      omega

/-- C5: with `max_retries = retries ≥ 1`, `generate_embedding` calls the
embedding service at most `retries` times, sleeps `2 ^ attempt` seconds
after each failed non-final attempt (so the sleeps are exactly
`2^0, 2^1, …` between consecutive failures); when every attempt fails it
returns `none` — a typed failure, not an exception — after exactly
`retries` calls; and in the per-chunk pipeline loop every chunk is still
processed (successes plus failures exhaust the chunk list, with one record
per success), i.e. a failing chunk does not abort the run. -/
theorem embedding_retry_discipline (svc : Nat → Option Emb) (retries : Nat)
    (hret : 1 ≤ retries) :
    (generate_embedding svc retries).2.1 ≤ retries ∧
    (generate_embedding svc retries).2.2 =
      (List.range ((generate_embedding svc retries).2.1 - 1)).map (fun j => 2 ^ j) ∧
    ((∀ j, svc j = none) →
      (generate_embedding svc retries).1 = none ∧
        (generate_embedding svc retries).2.1 = retries) ∧
    (∀ (embed : Nat → Nat → Option Emb) (timeAt : Nat → Nat) (i : Nat)
        (chunks : List String),
      (processChunksGo embed timeAt retries i chunks).2.1 +
          (processChunksGo embed timeAt retries i chunks).2.2 = chunks.length ∧
        (processChunksGo embed timeAt retries i chunks).1.length =
          (processChunksGo embed timeAt retries i chunks).2.1) := by
  refine ⟨?_, ?_, ?_, ?_⟩
  · have := genEmbedLoop_calls_le svc retries (List.range retries)
    simpa [generate_embedding] using this
  · have := genEmbedLoop_sleeps svc retries retries 0 (by omega)
    simpa [generate_embedding, List.range_eq_range'] using this
  · intro hfail
    have := genEmbedLoop_all_fail svc retries hfail retries 0 (by omega)
    simpa [generate_embedding, List.range_eq_range'] using this
  · intro embed timeAt i chunks
    exact processChunksGo_counts embed timeAt retries i chunks

theorem embedding_retry_discipline_witness :
    (1 ≤ 3 ∧
      (generate_embedding (fun _ => (none : Option Emb)) 3).1 = none ∧
      (generate_embedding (fun _ => (none : Option Emb)) 3).2.1 = 3 ∧
      (generate_embedding (fun _ => (none : Option Emb)) 3).2.2 = [1, 2]) ∧
    (generate_embedding (fun _ => (none : Option Emb)) 3).2.1 ≤ 3 :=
  ⟨⟨by decide, by decide, by decide, by decide⟩,
    (embedding_retry_discipline (fun _ => none) 3 (by decide)).1⟩

/-! ### Claim C6: batch partitioning and independent submission -/

theorem toBatches_nil (bs : Nat) : toBatches bs ([] : List α) = [] := by
  unfold toBatches
  have h : (bs - 1) / bs = 0 := by
    rcases Nat.eq_zero_or_pos bs with h | h
    · simp [h]
    · exact Nat.div_eq_of_lt (by omega)
  simp [h]

theorem toBatches_cons (bs : Nat) (hbs : 1 ≤ bs) (l : List α) (hl : l ≠ []) :
    toBatches bs l = l.take bs :: toBatches bs (l.drop bs) := by
  have hn : 1 ≤ l.length := List.length_pos.mpr hl
  have hcount : (l.length + bs - 1) / bs = (l.length - 1) / bs + 1 := by
    have h1 : l.length + bs - 1 = (l.length - 1) + bs := by omega
    rw [h1, Nat.add_div_right _ (by omega)]
  have hcount2 : ((l.drop bs).length + bs - 1) / bs = (l.length - 1) / bs := by
    rw [List.length_drop]
    rcases Nat.le_total l.length bs with hle | hge
    · have h1 : l.length - bs = 0 := by omega
      rw [h1]
      have h2 : (0 + bs - 1) / bs = 0 := Nat.div_eq_of_lt (by omega)
      rw [h2]
      exact (Nat.div_eq_of_lt (by omega)).symm
    · have h1 : l.length - bs + bs - 1 = l.length - 1 := by omega
      rw [h1]
  unfold toBatches
  rw [hcount, hcount2, List.range_succ_eq_map, List.map_cons]
  congr 1
  · simp
  · rw [List.map_map]
    apply List.map_congr_left
    intro k _
    simp only [Function.comp_apply, List.drop_drop, Nat.succ_mul, Nat.add_comm]

theorem toBatches_eq_nil_iff (bs : Nat) (hbs : 1 ≤ bs) (l : List α) :
    toBatches bs l = [] ↔ l = [] := by
  constructor
  · intro h
    by_contra hl
    rw [toBatches_cons bs hbs l hl] at h
    exact List.cons_ne_nil _ _ h
  · intro h
    rw [h]
    exact toBatches_nil bs

theorem toBatches_flatten (bs : Nat) (hbs : 1 ≤ bs) (l : List α) :
    (toBatches bs l).flatten = l := by
  by_cases hl : l = []
  · rw [hl, toBatches_nil]
    rfl
  · rw [toBatches_cons bs hbs l hl, List.flatten_cons]
    have hdec : (l.drop bs).length < l.length := by
      rw [List.length_drop]
      have := List.length_pos.mpr hl
      omega
    rw [toBatches_flatten bs hbs (l.drop bs)]
    exact List.take_append_drop bs l
termination_by l.length
decreasing_by exact hdec

theorem toBatches_full_sizes (bs : Nat) (hbs : 1 ≤ bs) (l : List α) :
    ∀ b ∈ (toBatches bs l).dropLast, b.length = bs := by
  by_cases hl : l = []
  · rw [hl, toBatches_nil]
    intro b hb
    exact absurd hb (List.not_mem_nil b)
  · rw [toBatches_cons bs hbs l hl]
    by_cases h2 : l.drop bs = []
    · rw [h2, toBatches_nil]
      intro b hb
      exact absurd hb (List.not_mem_nil b)
    · have hne : toBatches bs (l.drop bs) ≠ [] := by
        rw [Ne, toBatches_eq_nil_iff bs hbs]
        exact h2
      rw [List.dropLast_cons_of_ne_nil hne]
      intro b hb
      rcases List.mem_cons.mp hb with hb | hb
      · subst hb
        have hlen : bs < l.length := by
          by_contra hle
          exact h2 (List.drop_eq_nil_of_le (by omega))
        rw [List.length_take]
        omega
      · have hdec : (l.drop bs).length < l.length := by
          rw [List.length_drop]
          have := List.length_pos.mpr hl
          omega
        exact toBatches_full_sizes bs hbs (l.drop bs) b hb
termination_by l.length
decreasing_by exact hdec

theorem toBatches_all_sizes (bs : Nat) (hbs : 1 ≤ bs) (l : List α) :
    ∀ b ∈ toBatches bs l, b.length ≤ bs ∧ b ≠ [] := by
  by_cases hl : l = []
  · rw [hl, toBatches_nil]
    intro b hb
    exact absurd hb (List.not_mem_nil b)
  · rw [toBatches_cons bs hbs l hl]
    intro b hb
    rcases List.mem_cons.mp hb with hb | hb
    · subst hb
      constructor
      · exact List.length_take_le bs l
      · simp only [Ne, List.take_eq_nil_iff]
        push_neg
        exact ⟨by omega, hl⟩
    · have hdec : (l.drop bs).length < l.length := by
        rw [List.length_drop]
        have := List.length_pos.mpr hl
        omega
      exact toBatches_all_sizes bs hbs (l.drop bs) b hb
termination_by l.length
decreasing_by exact hdec

theorem uploadBatches_attempts (submit : Nat → Bool) :
    ∀ (bl : List (List α)) (i : Nat),
      (uploadBatches submit i bl).map Prod.fst = List.range' i bl.length
  | [], i => by simp [uploadBatches]
  | b :: rest, i => by
    simp only [uploadBatches, List.map_cons, List.length_cons, List.range'_succ]
    rw [uploadBatches_attempts submit rest (i + 1)]

/-- C6: for every record list and `batch_size ≥ 1`, the upload stage
partitions the records into order-preserving batches (their concatenation
is exactly the record list) of exactly `batch_size` records each except a
possibly smaller, non-empty final batch; and whatever the per-batch
submission outcomes, every batch is submitted (each submission sits in its
own `try/except`), so a failure on one batch never prevents the following
batches from being submitted. -/
theorem batch_partition_and_independence (bs : Nat) (l : List α) (hbs : 1 ≤ bs) :
    (toBatches bs l).flatten = l ∧
    (∀ b ∈ (toBatches bs l).dropLast, b.length = bs) ∧
    (∀ b ∈ toBatches bs l, b.length ≤ bs ∧ b ≠ []) ∧
    (∀ submit : Nat → Bool,
      (uploadBatches submit 0 (toBatches bs l)).map Prod.fst =
        List.range (toBatches bs l).length) :=
  ⟨toBatches_flatten bs hbs l, toBatches_full_sizes bs hbs l,
    toBatches_all_sizes bs hbs l,
    fun submit => by
      rw [uploadBatches_attempts submit (toBatches bs l) 0, List.range_eq_range']⟩

theorem batch_partition_and_independence_witness :
    ((toBatches batchSize (List.range 250)).map List.length = [96, 96, 58] ∧
      (uploadBatches (fun i => decide (i ≠ 1)) 0
          (toBatches batchSize (List.range 250))).map Prod.snd = [true, false, true]) ∧
    (toBatches batchSize (List.range 250)).flatten = List.range 250 :=
  ⟨⟨by decide, by decide⟩,
    (batch_partition_and_independence batchSize (List.range 250) (by decide)).1⟩

/-! ### Claim C7: record identifiers across runs -/

/-- C7 counterexample: two runs over the identical 60-token document with
identical configuration and successful embeddings, differing only in the
epoch second read by `int(time.time())`, assign different identifiers to
the same chunk — so re-running inserts a fresh record instead of
overwriting the previous one. -/
theorem record_ids_not_run_stable_cex :
    (process_textbook_run (fun _ _ => some [1]) (fun _ => 0) (wText 59)).records.map
        Record.id = ["textbook-chunk-0-0"] ∧
    (process_textbook_run (fun _ _ => some [1]) (fun _ => 1) (wText 59)).records.map
        Record.id = ["textbook-chunk-0-1"] ∧
    ("textbook-chunk-0-0" : String) ≠ "textbook-chunk-0-1" :=
  ⟨by decide, by decide, by decide⟩

theorem processChunksGo_ids (embed : Nat → Nat → Option Emb) (timeAt : Nat → Nat)
    (retries : Nat) : ∀ (i : Nat) (chunks : List String),
      ∀ r ∈ (processChunksGo embed timeAt retries i chunks).1,
        r.id = recordId r.chunk_index (timeAt r.chunk_index)
  | _, [] => by simp [processChunksGo]
  | i, c :: cs => by
    have ih := processChunksGo_ids embed timeAt retries (i + 1) cs
    simp only [processChunksGo]
    cases (generate_embedding (embed i) retries).1 with
    | some e =>
      by_cases he : e = []
      · simp only [he, if_pos]
        exact ih
      · simp only [he, if_neg, not_false_iff]
        intro r hr
        rcases List.mem_cons.mp hr with hr | hr
        · subst hr
          rfl
        · exact ih r hr
    | none => exact ih

/-- C7 amended: record identifiers are a deterministic function of the
chunk index and of the epoch second at record creation
(`textbook-chunk-{i}-{t}`), not of the document and chunk index alone:
within any run every persisted record's identifier is exactly
`recordId chunk_index (timeAt chunk_index)`, and runs reading a different
clock value produce different identifiers for the same chunk (see the
counterexample), creating new records rather than overwriting. -/
theorem record_id_scheme (embed : Nat → Nat → Option Emb) (timeAt : Nat → Nat)
    (text : String) :
    ∀ r ∈ (process_textbook_run embed timeAt text).records,
      r.id = recordId r.chunk_index (timeAt r.chunk_index) :=
  fun r hr => processChunksGo_ids embed timeAt 3 0 (split_text_semantically text) r hr

theorem record_id_scheme_witness :
    ({ id := "textbook-chunk-0-7", values := [1], text := wText 59,
        chunk_index := 0, tokens := 60 } : Record) ∈
      (process_textbook_run (fun _ _ => some [1]) (fun _ => 7) (wText 59)).records ∧
    ({ id := "textbook-chunk-0-7", values := [1], text := wText 59,
        chunk_index := 0, tokens := 60 } : Record).id = recordId 0 7 :=
  ⟨by decide,
    record_id_scheme (fun _ _ => some [1]) (fun _ => 7) (wText 59)
      { id := "textbook-chunk-0-7", values := [1], text := wText 59,
        chunk_index := 0, tokens := 60 } (by decide)⟩

/-! ### Claim C10: determinism of chunk assembly -/

/-- C10: chunk assembly is deterministic — with the tokenizer and the
configuration constants fixed, two pipeline runs over identical input text
yield byte-identical chunk sequences, whatever the ambient nondeterminism
(embedding-service outcomes and clock readings), because
`split_text_semantically` is a pure function of the text alone. -/
theorem chunking_deterministic (text : String)
    (e1 e2 : Nat → Nat → Option Emb) (t1 t2 : Nat → Nat) :
    (process_textbook_run e1 t1 text).chunks = (process_textbook_run e2 t2 text).chunks :=
  rfl

/-! ### Claim C3: normalization is not idempotent, but stabilizes -/

/-- The head of the list, when present, is not whitespace. -/
def headNonWs (l : List Char) : Prop :=
  ∀ c, l.head? = some c → isWs c = false

/-- The last element of the list, when present, is not whitespace. -/
def lastNonWs (l : List Char) : Prop :=
  ∀ c, l.getLast? = some c → isWs c = false

theorem collapseWsAux_cons_ws_true {c : Char} (hc : isWs c = true) (cs : List Char) :
    collapseWsAux true (c :: cs) = collapseWsAux true cs := by
  simp [collapseWsAux, hc]

theorem collapseWsAux_cons_ws_false {c : Char} (hc : isWs c = true) (cs : List Char) :
    collapseWsAux false (c :: cs) = ' ' :: collapseWsAux true cs := by
  simp [collapseWsAux, hc]

theorem collapseWsAux_cons_nonws {c : Char} (hc : isWs c = false) (b : Bool)
    (cs : List Char) : collapseWsAux b (c :: cs) = c :: collapseWsAux false cs := by
  simp [collapseWsAux, hc]

theorem mem_collapseWsAux {c : Char} :
    ∀ (b : Bool) (l : List Char), c ∈ collapseWsAux b l →
      c = ' ' ∨ (c ∈ l ∧ isWs c = false)
  | _, [], h => absurd h (List.not_mem_nil c)
  | b, d :: ds, h => by
    by_cases hd : isWs d = true
    · cases b with
      | true =>
        simp only [collapseWsAux, hd, if_pos] at h
        rcases mem_collapseWsAux true ds h with h | ⟨h1, h2⟩
        · exact Or.inl h
        · exact Or.inr ⟨List.mem_cons_of_mem d h1, h2⟩
      | false =>
        simp only [collapseWsAux, hd, if_pos] at h
        rcases List.mem_cons.mp h with h | h
        · exact Or.inl h
        · rcases mem_collapseWsAux true ds h with h | ⟨h1, h2⟩
          · exact Or.inl h
          · exact Or.inr ⟨List.mem_cons_of_mem d h1, h2⟩
    · simp only [collapseWsAux, hd, if_neg, not_false_iff] at h
      rcases List.mem_cons.mp h with h | h
      · subst h
        exact Or.inr ⟨List.mem_cons_self c ds, by simpa using hd⟩
      · rcases mem_collapseWsAux false ds h with h | ⟨h1, h2⟩
        · exact Or.inl h
        · exact Or.inr ⟨List.mem_cons_of_mem d h1, h2⟩

theorem mem_collapseWsAux_of_nonws {c : Char} (hc : isWs c = false) :
    ∀ (b : Bool) (l : List Char), c ∈ l → c ∈ collapseWsAux b l
  | _, [], h => absurd h (List.not_mem_nil c)
  | b, d :: ds, h => by
    by_cases hd : isWs d = true
    · have hcd : c ∈ ds := by
        rcases List.mem_cons.mp h with h | h
        · subst h; rw [hd] at hc; cases hc
        · exact h
      cases b with
      | true =>
        simpa only [collapseWsAux, hd, if_pos] using
          mem_collapseWsAux_of_nonws hc true ds hcd
      | false =>
        simp only [collapseWsAux, hd, if_pos]
        exact List.mem_cons_of_mem ' ' (mem_collapseWsAux_of_nonws hc true ds hcd)
    · simp only [collapseWsAux, hd, if_neg, not_false_iff]
      rcases List.mem_cons.mp h with h | h
      · exact h ▸ List.mem_cons_self c _
      · exact List.mem_cons_of_mem d (mem_collapseWsAux_of_nonws hc false ds h)

theorem collapseWsAux_pair : ∀ l : List Char,
    (∀ b, collapseWsAux false (collapseWsAux b l) = collapseWsAux b l) ∧
      collapseWsAux true (collapseWsAux true l) = collapseWsAux true l
  | [] => ⟨fun _ => rfl, rfl⟩
  | c :: cs => by
    have ih := collapseWsAux_pair cs
    by_cases hc : isWs c = true
    · refine ⟨fun b => ?_, ?_⟩
      · cases b with
        | true =>
          rw [collapseWsAux_cons_ws_true hc]
          exact ih.1 true
        | false =>
          rw [collapseWsAux_cons_ws_false hc,
            collapseWsAux_cons_ws_false (show isWs ' ' = true from rfl), ih.2]
      · rw [collapseWsAux_cons_ws_true hc]
        exact ih.2
    · have hc' : isWs c = false := by simpa using hc
      refine ⟨fun b => ?_, ?_⟩
      · rw [collapseWsAux_cons_nonws hc' b, collapseWsAux_cons_nonws hc' false, ih.1 false]
      · rw [collapseWsAux_cons_nonws hc' true, collapseWsAux_cons_nonws hc' true, ih.1 false]

theorem collapseWs_idem (l : List Char) : collapseWs (collapseWs l) = collapseWs l :=
  (collapseWsAux_pair l).1 false

theorem headNonWs_collapseWs {l : List Char} (h : headNonWs l) :
    headNonWs (collapseWs l) := by
  cases l with
  | nil => intro c hc; cases hc
  | cons d ds =>
    have hd : isWs d = false := h d rfl
    intro c hc
    simp only [collapseWs, collapseWsAux, hd, Bool.false_eq_true, if_false,
      List.head?_cons, Option.some.injEq] at hc
    rw [← hc]
    exact hd

theorem collapseWsAux_ne_nil_of_mem {c : Char} (hc : isWs c = false) (b : Bool)
    (l : List Char) (h : c ∈ l) : collapseWsAux b l ≠ [] :=
  fun hnil => absurd (hnil ▸ mem_collapseWsAux_of_nonws hc b l h) (List.not_mem_nil c)

theorem lastNonWs_cons {d : Char} {ds : List Char} (h : lastNonWs (d :: ds))
    (hds : ds ≠ []) : lastNonWs ds := by
  intro c hc
  apply h c
  cases ds with
  | nil => exact absurd rfl hds
  | cons e es => rw [List.getLast?_cons_cons]; exact hc

theorem getLast?_mem : ∀ {l : List α} {c : α}, l.getLast? = some c → c ∈ l
  | [], c, h => by cases h
  | [a], c, h => by
    simp only [List.getLast?_singleton, Option.some.injEq] at h
    exact h ▸ List.mem_singleton_self a
  | a :: b :: l, c, h => by
    rw [List.getLast?_cons_cons] at h
    exact List.mem_cons_of_mem a (getLast?_mem h)

theorem lastNonWs_collapseWsAux : ∀ (l : List Char), lastNonWs l →
    ∀ b, lastNonWs (collapseWsAux b l)
  | [], _, b => by intro c hc; cases hc
  | d :: ds, h, b => by
    by_cases hd : isWs d = true
    · have hds : ds ≠ [] := by
        intro hnil
        subst hnil
        rw [h d rfl] at hd
        cases hd
      have hlast : lastNonWs ds := lastNonWs_cons h hds
      cases b with
      | true =>
        rw [collapseWsAux_cons_ws_true hd]
        exact lastNonWs_collapseWsAux ds hlast true
      | false =>
        rw [collapseWsAux_cons_ws_false hd]
        -- the tail `collapseWsAux true ds` is non-empty: `ds`'s last element
        -- is a non-whitespace member
        obtain ⟨e, he⟩ : ∃ e, ds.getLast? = some e := by
          cases hds' : ds.getLast? with
          | none => exact absurd (List.getLast?_eq_none_iff.mp hds') hds
          | some e => exact ⟨e, rfl⟩
        have hene : collapseWsAux true ds ≠ [] :=
          collapseWsAux_ne_nil_of_mem (hlast e he) true ds (getLast?_mem he)
        intro c hc
        cases htl : collapseWsAux true ds with
        | nil => exact absurd htl hene
        | cons f fs =>
          rw [htl, List.getLast?_cons_cons] at hc
          exact lastNonWs_collapseWsAux ds hlast true c (by rw [htl]; exact hc)
    · have hd' : isWs d = false := by simpa using hd
      rw [collapseWsAux_cons_nonws hd' b]
      cases hds : ds with
      | nil =>
        intro c hc
        simp only [hds, collapseWsAux, List.getLast?_singleton, Option.some.injEq] at hc
        rw [← hc]
        exact hd'
      | cons e es =>
        rw [← hds]
        have hlast : lastNonWs ds := lastNonWs_cons h (by rw [hds]; simp)
        intro c hc
        cases htl : collapseWsAux false ds with
        | nil =>
          rw [htl, List.getLast?_singleton, Option.some.injEq] at hc
          rw [← hc]
          exact hd'
        | cons f fs =>
          rw [htl, List.getLast?_cons_cons] at hc
          exact lastNonWs_collapseWsAux ds hlast false c (by rw [htl]; exact hc)

theorem headNonWs_dropWhile (l : List Char) : headNonWs (l.dropWhile isWs) := by
  induction l with
  | nil => intro c hc; cases hc
  | cons d ds ih =>
    by_cases hd : isWs d = true
    · simpa [List.dropWhile, hd] using ih
    · intro c hc
      simp only [List.dropWhile, hd, Bool.false_eq_true, if_false,
        List.head?_cons, Option.some.injEq] at hc
      rw [← hc]
      simpa using hd

theorem dropWhile_eq_self_of_headNonWs {l : List Char} (h : headNonWs l) :
    l.dropWhile isWs = l := by
  cases l with
  | nil => rfl
  | cons d ds => simp [List.dropWhile, h d rfl]

theorem getLast?_dropWhile_of_ne_nil {l : List Char}
    (h : l.dropWhile isWs ≠ []) : (l.dropWhile isWs).getLast? = l.getLast? := by
  conv_rhs => rw [← List.takeWhile_append_dropWhile (p := isWs) (l := l)]
  rw [List.getLast?_append_of_ne_nil _ h]

theorem headNonWs_stripL (l : List Char) : headNonWs (stripL l) := by
  unfold stripL
  intro c hc
  rw [List.head?_reverse] at hc
  by_cases hne : (l.dropWhile isWs).reverse.dropWhile isWs = []
  · rw [hne] at hc; cases hc
  · rw [getLast?_dropWhile_of_ne_nil hne, List.getLast?_reverse] at hc
    exact headNonWs_dropWhile l c hc

theorem lastNonWs_stripL (l : List Char) : lastNonWs (stripL l) := by
  unfold stripL
  intro c hc
  rw [List.getLast?_reverse] at hc
  exact headNonWs_dropWhile (l.dropWhile isWs).reverse c hc

theorem mem_stripL {c : Char} {l : List Char} (h : c ∈ stripL l) : c ∈ l := by
  unfold stripL at h
  rw [List.mem_reverse] at h
  have h1 := (List.dropWhile_sublist (l := (l.dropWhile isWs).reverse) isWs).subset h
  rw [List.mem_reverse] at h1
  exact (List.dropWhile_sublist (l := l) isWs).subset h1

theorem stripL_eq_self {l : List Char} (hh : headNonWs l) (hl : lastNonWs l) :
    stripL l = l := by
  unfold stripL
  rw [dropWhile_eq_self_of_headNonWs hh]
  have hh2 : headNonWs l.reverse := by
    intro c hc
    rw [List.head?_reverse] at hc
    exact hl c hc
  rw [dropWhile_eq_self_of_headNonWs hh2, List.reverse_reverse]

theorem mem_removePageNums {c : Char} {l : List Char} (h : c ∈ removePageNums l) :
    c ∈ l := by
  unfold removePageNums at h
  split at h
  · exact absurd h (List.not_mem_nil c)
  · exact h

/-- C3 counterexample: `clean_text` is not idempotent.  On `"a @ b"` the
artifact filter removes `@` between two spaces, leaving the double space
`"a  b"`; a second application collapses it to `"a b"`. -/
theorem clean_text_not_idempotent_cex :
    clean_text (clean_text "a @ b") ≠ clean_text "a @ b" := by decide

/-- Every character of a cleaned string is in the allow-list. -/
theorem clean_text_all_allowed (x : String) :
    ∀ c ∈ (clean_text x).data, isAllowedC c = true := fun c hc =>
  List.of_mem_filter (mem_stripL hc)

theorem clean_text_headNonWs (x : String) : headNonWs (clean_text x).data :=
  headNonWs_stripL _

theorem clean_text_lastNonWs (x : String) : lastNonWs (clean_text x).data :=
  lastNonWs_stripL _

/-- C3 amended: `clean_text` is not idempotent (see the counterexample),
but applying it twice reaches a fixed point: for every string `x`,
`clean_text (clean_text (clean_text x)) = clean_text (clean_text x)`. -/
theorem clean_text_stabilizes (x : String) :
    clean_text (clean_text (clean_text x)) = clean_text (clean_text x) := by
  set y := clean_text x with hy
  have hall : ∀ c ∈ y.data, isAllowedC c = true := clean_text_all_allowed x
  have hhead : headNonWs y.data := clean_text_headNonWs x
  have hlast : lastNonWs y.data := clean_text_lastNonWs x
  -- characterize `clean_text y`
  set c1 := collapseWs y.data with hc1
  have hallc1 : ∀ c ∈ c1, isAllowedC c = true := by
    intro c hc
    rcases mem_collapseWsAux false y.data hc with h | ⟨h1, _⟩
    · rw [h]; rfl
    · exact hall c h1
  have hheadc1 : headNonWs c1 := headNonWs_collapseWs hhead
  have hlastc1 : lastNonWs c1 := lastNonWs_collapseWsAux y.data hlast false
  by_cases hpn : isPageNumL c1 = true
  · -- the cleaned string is a bare page number: it cleans to the empty
    -- string, which is a fixed point
    have hyy : clean_text y = "" := by
      show (⟨stripL ((removePageNums (collapseWs y.data)).filter isAllowedC)⟩ : String) = ""
      rw [← hc1]
      unfold removePageNums
      rw [if_pos hpn]
      rfl
    rw [hyy]
    rfl
  · have hrm : removePageNums c1 = c1 := by
      unfold removePageNums
      rw [if_neg hpn]
    have hfil : c1.filter isAllowedC = c1 := List.filter_eq_self.mpr hallc1
    have hstr : stripL c1 = c1 := stripL_eq_self hheadc1 hlastc1
    have hyy : clean_text y = ⟨c1⟩ := by
      show (⟨stripL ((removePageNums (collapseWs y.data)).filter isAllowedC)⟩ : String) =
        (⟨c1⟩ : String)
      rw [← hc1, hrm, hfil, hstr]
    rw [hyy]
    show (⟨stripL ((removePageNums (collapseWs c1)).filter isAllowedC)⟩ : String) =
      (⟨c1⟩ : String)
    rw [hc1, collapseWs_idem, ← hc1, hrm, hfil, hstr]

/-! ### Claim C4: coverage

The assembly loop is instrumented to record, for every produced chunk, the
overlap seed it starts from (`none` for the very first chunk) and the fresh
(non-overlap) text appended after it; the chunk is the trimmed join of the
two.  Coverage then says the fresh portions, joined by the single spaces the
loop inserts, reproduce the assembler's input. -/

/-- Join a list of strings with single spaces (the separator
`split_text_semantically` uses when accumulating chunks). -/
def jsp : List String → String
  | [] => ""
  | [s] => s
  | s :: ss => s ++ " " ++ jsp ss

theorem jsp_cons (s : String) {ss : List String} (h : ss ≠ []) :
    jsp (s :: ss) = s ++ " " ++ jsp ss := by
  cases ss with
  | nil => exact absurd rfl h
  | cons t ts => rfl

theorem jsp_append {xs : List String} (ys : List String) (hys : ys ≠ []) :
    jsp (xs ++ ys) = if xs = [] then jsp ys else jsp xs ++ " " ++ jsp ys := by
  induction xs with
  | nil => simp
  | cons x xs ih =>
    rw [List.cons_append, if_neg (List.cons_ne_nil x xs)]
    by_cases hxs : xs = []
    · subst hxs
      simp only [List.nil_append]
      exact jsp_cons x hys
    · rw [jsp_cons x (by simp [hxs]), ih, if_neg hxs, jsp_cons x hxs]
      simp [String.append_assoc]

theorem jsp_merge_head (a b : String) (ys : List String) :
    jsp ((a ++ " " ++ b) :: ys) = jsp (a :: b :: ys) := by
  cases ys with
  | nil => rfl
  | cons y ys =>
    rw [jsp_cons _ (List.cons_ne_nil y ys), jsp_cons a (List.cons_ne_nil b _),
      jsp_cons b (List.cons_ne_nil y ys)]
    simp [String.append_assoc]

theorem jsp_splice (xs : List String) (a b : String) (ys : List String) :
    jsp (xs ++ (a ++ " " ++ b) :: ys) = jsp (xs ++ a :: b :: ys) := by
  rw [jsp_append ((a ++ " " ++ b) :: ys) (List.cons_ne_nil _ _),
    jsp_append (a :: b :: ys) (List.cons_ne_nil _ _), jsp_merge_head]

/-- The chunk text determined by an overlap seed (`none` for the first
chunk) and the fresh text that follows it. -/
def combinePart : Option String → String → String
  | none, part => part
  | some ov, part => ov ++ " " ++ part

/-- Reassemble the chunk recorded by an instrumented state. -/
def chunkOf (pr : Option String × String) : String :=
  stripS (combinePart pr.1 pr.2)

/-- Instrumented chunk-assembly loop: the same control flow as
`assembleGo`, with the running chunk split into its overlap seed and its
fresh part. -/
def assemblePartsGo (k : Nat) :
    List String → Option String → String → Nat → List (Option String × String) →
      List (Option String × String)
  | [], o, part, _, acc =>
    if stripS (combinePart o part) = "" then acc else acc ++ [(o, part)]
  | p :: ps, o, part, curTok, acc =>
    if maxTokens < curTok + count_tokens p ∧ combinePart o part ≠ "" then
      assemblePartsGo k ps (some (create_intelligent_overlap k (combinePart o part))) p
        (count_tokens (create_intelligent_overlap k (combinePart o part) ++ " " ++ p))
        (acc ++ [(o, part)])
    else
      assemblePartsGo k ps o (if combinePart o part = "" then p else part ++ " " ++ p)
        (curTok + count_tokens p) acc

theorem sp_append_ne_empty (a b : String) : a ++ " " ++ b ≠ "" := by
  intro h
  have hd := congrArg String.data h
  rw [data_append, data_append] at hd
  have : (' ' : Char) ∈ (("" : String).data : List Char) := by
    rw [← hd]
    exact List.mem_append_left _ (List.mem_append_right _ (by simp [String.data]))
  simp [String.data] at this

theorem combinePart_empty {o : Option String} {part : String}
    (h : combinePart o part = "") : o = none ∧ part = "" := by
  cases o with
  | none => exact ⟨rfl, h⟩
  | some ov => exact absurd h (sp_append_ne_empty ov part)

theorem combinePart_extend (o : Option String) (part p : String)
    (h : combinePart o part ≠ "") :
    combinePart o part ++ " " ++ p = combinePart o (part ++ " " ++ p) := by
  cases o with
  | none => rfl
  | some ov =>
    show ov ++ " " ++ part ++ " " ++ p = ov ++ " " ++ (part ++ " " ++ p)
    simp [String.append_assoc]

/-- The instrumented loop reassembles to exactly the chunks of
`assembleGo`. -/
theorem assembleGo_eq_parts (k : Nat) :
    ∀ (ps : List String) (o : Option String) (part : String) (curTok : Nat)
      (acc : List (Option String × String)),
      assembleGo k ps (combinePart o part) curTok (acc.map chunkOf) =
        (assemblePartsGo k ps o part curTok acc).map chunkOf
  | [], o, part, curTok, acc => by
    simp only [assembleGo, assemblePartsGo]
    by_cases h : stripS (combinePart o part) = ""
    · rw [if_pos h, if_pos h]
    · rw [if_neg h, if_neg h, List.map_append]
      rfl
  | p :: ps, o, part, curTok, acc => by
    simp only [assembleGo, assemblePartsGo]
    by_cases hc : maxTokens < curTok + count_tokens p ∧ combinePart o part ≠ ""
    · rw [if_pos hc, if_pos hc]
      have hmap : (acc.map chunkOf) ++ [stripS (combinePart o part)] =
          (acc ++ [(o, part)]).map chunkOf := by
        rw [List.map_append]
        rfl
      rw [hmap]
      have hstep := assembleGo_eq_parts k ps
        (some (create_intelligent_overlap k (combinePart o part))) p
        (count_tokens (create_intelligent_overlap k (combinePart o part) ++ " " ++ p))
        (acc ++ [(o, part)])
      exact hstep
    · rw [if_neg hc, if_neg hc]
      by_cases hemp : combinePart o part = ""
      · rw [if_pos hemp, if_pos hemp]
        obtain ⟨ho, hpart⟩ := combinePart_empty hemp
        subst ho
        have := assembleGo_eq_parts k ps none p (curTok + count_tokens p) acc
        exact this
      · rw [if_neg hemp, if_neg hemp, combinePart_extend o part p hemp]
        exact assembleGo_eq_parts k ps o (part ++ " " ++ p) (curTok + count_tokens p) acc

/-- The string contains at least one non-whitespace character. -/
def hasNonWs (s : String) : Prop :=
  ∃ c ∈ s.data, isWs c = false

theorem all_ws_of_stripL_eq_nil {l : List Char} (h : stripL l = []) :
    ∀ c ∈ l, isWs c = true := by
  unfold stripL at h
  rw [List.reverse_eq_nil_iff] at h
  have h2 : ∀ c ∈ l.dropWhile isWs, isWs c = true := by
    intro c hc
    exact List.dropWhile_eq_nil_iff.mp h c (List.mem_reverse.mpr hc)
  intro c hc
  rw [← List.takeWhile_append_dropWhile (p := isWs) (l := l)] at hc
  rcases List.mem_append.mp hc with h1 | h1
  · exact List.mem_takeWhile_imp h1
  · exact h2 c h1

theorem stripS_ne_empty {s : String} (h : hasNonWs s) : stripS s ≠ "" := by
  intro he
  obtain ⟨c, hc, hcw⟩ := h
  have hnil : stripL s.data = [] := congrArg String.data he
  rw [all_ws_of_stripL_eq_nil hnil c hc] at hcw
  cases hcw

theorem hasNonWs_ne_empty {s : String} (h : hasNonWs s) : s ≠ "" := by
  intro he
  obtain ⟨c, hc, _⟩ := h
  rw [he] at hc
  exact absurd hc (List.not_mem_nil c)

theorem hasNonWs_combinePart (o : Option String) {part : String}
    (h : hasNonWs part) : hasNonWs (combinePart o part) := by
  obtain ⟨c, hc, hcw⟩ := h
  cases o with
  | none => exact ⟨c, hc, hcw⟩
  | some ov =>
    refine ⟨c, ?_, hcw⟩
    show c ∈ (ov ++ " " ++ part).data
    rw [data_append]
    exact List.mem_append_right _ hc

theorem hasNonWs_sp_join_left (a b : String) (h : hasNonWs a) :
    hasNonWs (a ++ " " ++ b) := by
  obtain ⟨c, hc, hcw⟩ := h
  refine ⟨c, ?_, hcw⟩
  rw [data_append, data_append]
  exact List.mem_append_left _ (List.mem_append_left _ hc)

theorem combinePart_ne_empty (o : Option String) {part : String} (h : part ≠ "") :
    combinePart o part ≠ "" := by
  cases o with
  | none => exact h
  | some ov => exact sp_append_ne_empty ov part

/-- Nothing is lost by assembly: the fresh parts recorded by the
instrumented loop, joined with single spaces, reproduce the remaining
input segments (appended to what is already accumulated). -/
theorem assemblePartsGo_cover (k : Nat) :
    ∀ (ps : List String) (o : Option String) (part : String) (curTok : Nat)
      (acc : List (Option String × String)),
      hasNonWs part → (∀ p ∈ ps, hasNonWs p) →
      jsp ((assemblePartsGo k ps o part curTok acc).map Prod.snd) =
        jsp (acc.map Prod.snd ++ part :: ps)
  | [], o, part, curTok, acc, hpart, _ => by
    simp only [assemblePartsGo]
    rw [if_neg (stripS_ne_empty (hasNonWs_combinePart o hpart)), List.map_append]
    rfl
  | p :: ps, o, part, curTok, acc, hpart, hps => by
    simp only [assemblePartsGo]
    have hpp : hasNonWs p := hps p (List.mem_cons_self p ps)
    have hps' : ∀ q ∈ ps, hasNonWs q := fun q hq => hps q (List.mem_cons_of_mem p hq)
    by_cases hc : maxTokens < curTok + count_tokens p ∧ combinePart o part ≠ ""
    · rw [if_pos hc,
        assemblePartsGo_cover k ps _ p _ (acc ++ [(o, part)]) hpp hps',
        List.map_append, List.append_assoc]
      rfl
    · rw [if_neg hc,
        if_neg (combinePart_ne_empty o (hasNonWs_ne_empty hpart)),
        assemblePartsGo_cover k ps o (part ++ " " ++ p) _ acc
          (hasNonWs_sp_join_left part p hpart) hps']
      exact jsp_splice (acc.map Prod.snd) part p ps

/-- Coverage of the assembly stage: starting from the empty buffer, the
fresh parts join back to the input segments. -/
theorem assembleParts_cover (k : Nat) (segs : List String)
    (hsegs : ∀ p ∈ segs, hasNonWs p) :
    jsp ((assemblePartsGo k segs none "" 0 []).map Prod.snd) = jsp segs := by
  cases segs with
  | nil =>
    simp only [assemblePartsGo]
    rw [if_pos (show stripS (combinePart none "") = "" from rfl)]
    rfl
  | cons s ss =>
    show jsp ((assemblePartsGo k (s :: ss) none "" 0 []).map Prod.snd) = jsp (s :: ss)
    simp only [assemblePartsGo]
    rw [if_neg (fun hcc => hcc.2 rfl),
      if_pos (show combinePart none "" = "" from rfl)]
    have := assemblePartsGo_cover k ss none s (0 + count_tokens s) []
      (hsegs s (List.mem_cons_self s ss))
      (fun q hq => hsegs q (List.mem_cons_of_mem s hq))
    simpa using this

/-! Rejoining the sentence pieces.  The sentence separator `(?<=[.!?])\s+`
consumes the whitespace run after the punctuation, and the grouping loop
re-joins sentences with one space; the two agree exactly when the text has
no two adjacent whitespace characters and its whitespace is all plain
spaces — which holds for cleaned text except for runs newly created by
artifact removal. -/

/-- Join character-list pieces with single spaces. -/
def joinSpL : List (List Char) → List Char
  | [] => []
  | [l] => l
  | l :: ls => l ++ ' ' :: joinSpL ls

theorem joinSpL_cons (l : List Char) {ls : List (List Char)} (h : ls ≠ []) :
    joinSpL (l :: ls) = l ++ ' ' :: joinSpL ls := by
  cases ls with
  | nil => exact absurd rfl h
  | cons m ms => rfl

theorem sentGo_ne_nil : ∀ (rest : List Char) (skipping : Bool) (cur : List Char),
    sentGo skipping cur rest ≠ []
  | [], _, _ => by simp [sentGo]
  | c :: cs, skipping, cur => by
    simp only [sentGo]
    split
    · exact sentGo_ne_nil cs true cur
    · split
      · exact List.cons_ne_nil _ _
      · exact sentGo_ne_nil cs false (c :: cur)

/-- No two adjacent whitespace characters. -/
def noAdjWs : List Char → Bool
  | [] => true
  | [_] => true
  | c :: d :: rest => !(isWs c && isWs d) && noAdjWs (d :: rest)

theorem noAdjWs_tail {c : Char} {cs : List Char} (h : noAdjWs (c :: cs) = true) :
    noAdjWs cs = true := by
  cases cs with
  | nil => rfl
  | cons d ds =>
    simp only [noAdjWs, Bool.and_eq_true] at h
    exact h.2

theorem noAdjWs_head {c d : Char} {rest : List Char}
    (h : noAdjWs (c :: d :: rest) = true) (hc : isWs c = true) : isWs d = false := by
  simp only [noAdjWs, Bool.and_eq_true] at h
  rcases h with ⟨h1, _⟩
  by_cases hd : isWs d = true
  · rw [hc, hd] at h1
    simp at h1
  · simpa using hd

/-- Joining the pieces of the sentence split reproduces the text, provided
its whitespace is canonical (all single plain spaces). -/
theorem sentGo_join : ∀ (rest : List Char),
    noAdjWs rest = true → (∀ c ∈ rest, isWs c = true → c = ' ') →
    ((∀ cur, joinSpL (sentGo false cur rest) = cur.reverse ++ rest) ∧
      ((∀ c, rest.head? = some c → isWs c = false) →
        joinSpL (sentGo true [] rest) = rest))
  | [], _, _ =>
    ⟨fun cur => by simp [sentGo, joinSpL], fun _ => by simp [sentGo, joinSpL]⟩
  | c :: cs, hadj, hsp => by
    have hadj' := noAdjWs_tail hadj
    have hsp' : ∀ d ∈ cs, isWs d = true → d = ' ' :=
      fun d hd => hsp d (List.mem_cons_of_mem c hd)
    have ih := sentGo_join cs hadj' hsp'
    constructor
    · intro cur
      simp only [sentGo]
      by_cases hb : (isWs c && (match cur with
          | p :: _ => isSentEnd p | [] => false)) = true
      · rw [if_neg (by simp), if_pos hb]
        have hcws : isWs c = true := by
          have hb' := hb
          simp only [Bool.and_eq_true] at hb'
          exact hb'.1
        have hcsp : c = ' ' := hsp c (List.mem_cons_self c cs) hcws
        rw [joinSpL_cons _ (sentGo_ne_nil cs true [])]
        have hhead : ∀ d, cs.head? = some d → isWs d = false := by
          intro d hd
          cases cs with
          | nil => cases hd
          | cons e es =>
            have he : e = d := by
              simpa using hd
            exact he ▸ noAdjWs_head hadj hcws
        rw [ih.2 hhead, hcsp]
      · rw [if_neg (by simp), if_neg hb, ih.1 (c :: cur)]
        simp [List.reverse_cons, List.append_assoc]
    · intro hhead
      simp only [sentGo]
      have hcw : isWs c = false := hhead c rfl
      rw [if_neg (by simp [hcw]), if_neg (by simp [hcw]), ih.1 [c]]
      rfl

theorem jsp_map_mk : ∀ ls : List (List Char),
    jsp (ls.map fun l => (⟨l⟩ : String)) = ⟨joinSpL ls⟩
  | [] => rfl
  | [l] => rfl
  | l :: m :: ms => by
    show (⟨l⟩ : String) ++ " " ++ jsp ((m :: ms).map fun l => (⟨l⟩ : String)) =
      (⟨l ++ ' ' :: joinSpL (m :: ms)⟩ : String)
    rw [jsp_map_mk (m :: ms)]
    apply String.ext
    rw [data_append, data_append]
    simp

/-- Sentence splitting loses nothing on whitespace-canonical text. -/
theorem splitSentences_join (s : String) (hadj : noAdjWs s.data = true)
    (hsp : ∀ c ∈ s.data, isWs c = true → c = ' ') :
    jsp (splitSentences s) = s := by
  unfold splitSentences
  rw [jsp_map_mk, (sentGo_join s.data hadj hsp).1 []]
  rfl

theorem lastNonWs_of_cons {c : Char} {cs : List Char} (h : lastNonWs (c :: cs)) :
    lastNonWs cs := by
  intro d hd
  cases cs with
  | nil => cases hd
  | cons e es =>
    apply h d
    rw [List.getLast?_cons_cons]
    exact hd

theorem isSentEnd_not_ws {p : Char} (h : isSentEnd p = true) : isWs p = false := by
  simp only [isSentEnd, Bool.or_eq_true, decide_eq_true_eq] at h
  rcases h with (h | h) | h <;> subst h <;> decide

/-- Every piece produced by the sentence splitter on text with no leading
and no trailing whitespace is non-empty with non-whitespace ends (pieces
end at sentence punctuation or at the end of the text, and start right
after the separator's whitespace run). -/
theorem sentGo_pieces : ∀ (rest : List Char) (skipping : Bool) (cur : List Char),
    lastNonWs rest →
    (∀ c, cur.getLast? = some c → isWs c = false) →
    (skipping = false → cur = [] → headNonWs rest) →
    (rest = [] → cur ≠ []) →
    (rest = [] → ∀ c, cur.head? = some c → isWs c = false) →
    ∀ piece ∈ sentGo skipping cur rest,
      piece ≠ [] ∧ headNonWs piece ∧ lastNonWs piece
  | [], skipping, cur, _, hcg, _, hne, hch => by
    intro piece hpiece
    simp only [sentGo, List.mem_singleton] at hpiece
    subst hpiece
    refine ⟨?_, ?_, ?_⟩
    · simpa [List.reverse_eq_nil_iff] using hne rfl
    · intro c hc
      rw [List.head?_reverse] at hc
      exact hcg c hc
    · intro c hc
      rw [List.getLast?_reverse] at hc
      exact hch rfl c hc
  | c :: cs, skipping, cur, hlast, hcg, hstart, _, _ => by
    have hlast' : lastNonWs cs := lastNonWs_of_cons hlast
    by_cases hb1 : (skipping && isWs c) = true
    · have hcw : isWs c = true := by
        simp only [Bool.and_eq_true] at hb1
        exact hb1.2
      have hcsne : cs = [] → False := by
        intro hcs
        subst hcs
        rw [hlast c rfl] at hcw
        cases hcw
      intro piece hpiece
      simp only [sentGo, if_pos hb1] at hpiece
      exact sentGo_pieces cs true cur hlast' hcg (fun h => nomatch h)
        (fun hcs => (hcsne hcs).elim) (fun hcs => (hcsne hcs).elim) piece hpiece
    · cases cur with
      | nil =>
        intro piece hpiece
        simp only [sentGo, if_neg hb1] at hpiece
        rw [if_neg (show ¬((isWs c && false) = true) by simp)] at hpiece
        refine sentGo_pieces cs false [c] hlast' ?_ ?_ ?_ ?_ piece hpiece
        · intro d hd
          have hdc : c = d := by simpa using hd
          subst hdc
          cases hsk : skipping with
          | true =>
            rw [hsk] at hb1
            simpa using hb1
          | false => exact hstart hsk rfl c rfl
        · intro _ hcc
          exact absurd hcc (List.cons_ne_nil c [])
        · intro _
          exact List.cons_ne_nil c []
        · intro hcs d hd
          have hdc : c = d := by simpa using hd
          subst hdc
          subst hcs
          exact hlast c rfl
      | cons p ct =>
        by_cases hb2 : (isWs c && isSentEnd p) = true
        · have hcw : isWs c = true := by
            simp only [Bool.and_eq_true] at hb2
            exact hb2.1
          have hpe : isSentEnd p = true := by
            simp only [Bool.and_eq_true] at hb2
            exact hb2.2
          have hcsne : cs = [] → False := by
            intro hcs
            subst hcs
            rw [hlast c rfl] at hcw
            cases hcw
          intro piece hpiece
          simp only [sentGo, if_neg hb1] at hpiece
          rw [if_pos hb2] at hpiece
          rcases List.mem_cons.mp hpiece with hpiece | hpiece
          · subst hpiece
            refine ⟨by simp, ?_, ?_⟩
            · intro d hd
              rw [List.head?_reverse] at hd
              exact hcg d hd
            · intro d hd
              rw [List.getLast?_reverse] at hd
              have hdp : p = d := by simpa using hd
              exact hdp ▸ isSentEnd_not_ws hpe
          · exact sentGo_pieces cs true [] hlast'
              (fun d hd => by cases hd) (fun h => nomatch h)
              (fun hcs => (hcsne hcs).elim) (fun hcs => (hcsne hcs).elim)
              piece hpiece
        · intro piece hpiece
          simp only [sentGo, if_neg hb1] at hpiece
          rw [if_neg hb2] at hpiece
          refine sentGo_pieces cs false (c :: p :: ct) hlast' ?_ ?_ ?_ ?_ piece hpiece
          · intro d hd
            rw [List.getLast?_cons_cons] at hd
            exact hcg d hd
          · intro _ hcc
            exact absurd hcc (List.cons_ne_nil c (p :: ct))
          · intro _
            exact List.cons_ne_nil c (p :: ct)
          · intro hcs d hd
            have hdc : c = d := by simpa using hd
            subst hdc
            subst hcs
            exact hlast c rfl

/-- Non-empty with non-whitespace ends (`s.strip() == s != ""`). -/
def trimmedNE (s : String) : Prop :=
  s ≠ "" ∧ headNonWs s.data ∧ lastNonWs s.data

theorem data_ne_nil_of_ne_empty {s : String} (h : s ≠ "") : s.data ≠ [] := by
  intro hd
  exact h (String.ext (hd.trans rfl))

theorem stripS_eq_self {s : String} (hh : headNonWs s.data) (hl : lastNonWs s.data) :
    stripS s = s :=
  String.ext (stripL_eq_self hh hl)

theorem headNonWs_sp_join {a : String} (b : String) (ha : a ≠ "")
    (hh : headNonWs a.data) : headNonWs (a ++ " " ++ b).data := by
  intro c hc
  rw [data_append, data_append] at hc
  cases had : a.data with
  | nil => exact absurd (String.ext (had.trans rfl)) ha
  | cons d ds =>
    rw [had, List.cons_append, List.cons_append, List.head?_cons,
      Option.some.injEq] at hc
    rw [← hc]
    exact hh d (by rw [had]; rfl)

theorem lastNonWs_sp_join (a : String) {b : String} (hb : b ≠ "")
    (hl : lastNonWs b.data) : lastNonWs (a ++ " " ++ b).data := by
  intro c hc
  rw [data_append, List.getLast?_append_of_ne_nil _ (data_ne_nil_of_ne_empty hb)] at hc
  exact hl c hc

theorem trimmedNE_sp_join {a b : String} (ha : trimmedNE a) (hb : trimmedNE b) :
    trimmedNE (a ++ " " ++ b) :=
  ⟨sp_append_ne_empty a b, headNonWs_sp_join b ha.1 ha.2.1,
    lastNonWs_sp_join a hb.1 hb.2.2⟩

theorem trimmedNE_hasNonWs {s : String} (h : trimmedNE s) : hasNonWs s := by
  cases hd : s.data with
  | nil => exact absurd (String.ext (hd.trans rfl)) h.1
  | cons d ds =>
    exact ⟨d, by rw [hd]; exact List.mem_cons_self d ds,
      h.2.1 d (by rw [hd]; rfl)⟩

/-- The grouping loop preserves the space-joined content. -/
theorem groupSentGo_cover : ∀ (ss acc : List String) (cur : String) (curTok : Nat),
    trimmedNE cur → (∀ s ∈ ss, trimmedNE s) →
    jsp (groupSentGo acc cur curTok ss) = jsp (acc ++ cur :: ss)
  | [], acc, cur, curTok, hcur, _ => by
    simp only [groupSentGo]
    rw [stripS_eq_self hcur.2.1 hcur.2.2, if_neg hcur.1]
  | s :: ss, acc, cur, curTok, hcur, hss => by
    have hs : trimmedNE s := hss s (List.mem_cons_self s ss)
    have hss' : ∀ t ∈ ss, trimmedNE t := fun t ht => hss t (List.mem_cons_of_mem s ht)
    simp only [groupSentGo]
    by_cases hc : maxTokens < curTok + count_tokens s ∧ cur ≠ ""
    · rw [if_pos hc, stripS_eq_self hcur.2.1 hcur.2.2,
        groupSentGo_cover ss (acc ++ [cur]) s (count_tokens s) hs hss',
        List.append_assoc]
      rfl
    · rw [if_neg hc, if_neg hcur.1,
        groupSentGo_cover ss acc (cur ++ " " ++ s) (curTok + count_tokens s)
          (trimmedNE_sp_join hcur hs) hss']
      exact jsp_splice acc cur s ss

theorem groupSent_cover (sentences : List String)
    (hss : ∀ s ∈ sentences, trimmedNE s) (hne : sentences ≠ []) :
    jsp (groupSentGo [] "" 0 sentences) = jsp sentences := by
  cases sentences with
  | nil => exact absurd rfl hne
  | cons s ss =>
    simp only [groupSentGo]
    rw [if_neg (fun h => h.2 rfl), if_pos trivial,
      groupSentGo_cover ss [] s (0 + count_tokens s)
        (hss s (List.mem_cons_self s ss))
        (fun t ht => hss t (List.mem_cons_of_mem s ht))]
    rfl

/-- Every group emitted by the grouping loop is trimmed and non-empty. -/
theorem groupSentGo_mem : ∀ (ss acc : List String) (cur : String) (curTok : Nat),
    (∀ g ∈ acc, trimmedNE g) → trimmedNE cur → (∀ s ∈ ss, trimmedNE s) →
    ∀ g ∈ groupSentGo acc cur curTok ss, trimmedNE g
  | [], acc, cur, curTok, hacc, hcur, _ => by
    simp only [groupSentGo]
    rw [stripS_eq_self hcur.2.1 hcur.2.2, if_neg hcur.1]
    intro g hg
    rcases List.mem_append.mp hg with hg | hg
    · exact hacc g hg
    · rw [List.mem_singleton] at hg
      exact hg ▸ hcur
  | s :: ss, acc, cur, curTok, hacc, hcur, hss => by
    have hs : trimmedNE s := hss s (List.mem_cons_self s ss)
    have hss' : ∀ t ∈ ss, trimmedNE t := fun t ht => hss t (List.mem_cons_of_mem s ht)
    simp only [groupSentGo]
    by_cases hc : maxTokens < curTok + count_tokens s ∧ cur ≠ ""
    · rw [if_pos hc, stripS_eq_self hcur.2.1 hcur.2.2]
      refine groupSentGo_mem ss (acc ++ [cur]) s (count_tokens s) ?_ hs hss'
      intro g hg
      rcases List.mem_append.mp hg with hg | hg
      · exact hacc g hg
      · rw [List.mem_singleton] at hg
        exact hg ▸ hcur
    · rw [if_neg hc, if_neg hcur.1]
      exact groupSentGo_mem ss acc (cur ++ " " ++ s) (curTok + count_tokens s)
        hacc (trimmedNE_sp_join hcur hs) hss'

theorem groupSent_mem (sentences : List String)
    (hss : ∀ s ∈ sentences, trimmedNE s) :
    ∀ g ∈ groupSentGo [] "" 0 sentences, trimmedNE g := by
  cases sentences with
  | nil =>
    simp only [groupSentGo]
    rw [if_pos (show stripS "" = "" from rfl)]
    intro g hg
    exact absurd hg (List.not_mem_nil g)
  | cons s ss =>
    simp only [groupSentGo]
    rw [if_neg (fun h => h.2 rfl), if_pos trivial]
    exact groupSentGo_mem ss [] s (0 + count_tokens s)
      (fun g hg => absurd hg (List.not_mem_nil g))
      (hss s (List.mem_cons_self s ss))
      (fun t ht => hss t (List.mem_cons_of_mem s ht))

theorem clean_text_ws_space (x : String) :
    ∀ c ∈ (clean_text x).data, isWs c = true → c = ' ' := by
  intro c hc hw
  have h2 := List.mem_of_mem_filter (mem_stripL hc)
  have h3 := mem_removePageNums h2
  rcases mem_collapseWsAux false x.data h3 with h | ⟨_, hnw⟩
  · exact h
  · rw [hw] at hnw
    cases hnw

theorem clean_text_no_newline (x : String) :
    ∀ c ∈ (clean_text x).data, c ≠ '\n' := by
  intro c hc h
  subst h
  exact absurd (clean_text_ws_space x '\n' hc (by decide)) (by decide)

/-- On newline-free text, the paragraph split returns the whole text. -/
theorem paraGo_no_newline : ∀ (cs cur run : List Char),
    '\n' ∉ cs → '\n' ∉ run → paraGo cur run cs = [(run ++ cur).reverse ++ cs]
  | [], cur, run, _, hrun => by
    simp only [paraGo]
    rw [if_neg (show ¬(2 ≤ run.count '\n') by
      rw [List.count_eq_zero.mpr hrun]; omega)]
    simp
  | c :: cs, cur, run, hcs, hrun => by
    have hcs' : '\n' ∉ cs := fun h => hcs (List.mem_cons_of_mem c h)
    have hcne : c ≠ '\n' := fun h => hcs (h ▸ List.mem_cons_self c cs)
    simp only [paraGo]
    by_cases hw : isWs c = true
    · rw [if_pos hw, paraGo_no_newline cs cur (c :: run) hcs' (by
        intro h
        rcases List.mem_cons.mp h with h | h
        · exact hcne h.symm
        · exact hrun h)]
      simp [List.append_assoc]
    · rw [if_neg hw,
        if_neg (show ¬(2 ≤ run.count '\n') by
          rw [List.count_eq_zero.mpr hrun]; omega),
        paraGo_no_newline cs (c :: (run ++ cur)) [] hcs' (by simp)]
      simp [List.append_assoc]

theorem splitParagraphs_no_newline (s : String) (h : ∀ c ∈ s.data, c ≠ '\n') :
    splitParagraphs s = [s] := by
  unfold splitParagraphs
  rw [paraGo_no_newline s.data [] [] (fun hm => h '\n' hm rfl) (by simp)]
  rfl

/-- The segmenter on cleaned non-empty text: the single paragraph, either
kept whole or regrouped by sentences when above `2 * max_tokens` tokens. -/
theorem processedParagraphs_clean (x : String) (hne : clean_text x ≠ "") :
    processedParagraphs (clean_text x) =
      if maxTokens * 2 < count_tokens (clean_text x) then
        groupSentGo [] "" 0 (splitSentences (clean_text x))
      else [clean_text x] := by
  unfold processedParagraphs
  rw [splitParagraphs_no_newline _ (clean_text_no_newline x)]
  rw [show ([clean_text x].map stripS) = [clean_text x] by
    simp [stripS_eq_self (clean_text_headNonWs x) (clean_text_lastNonWs x)]]
  rw [show List.filter (fun s => s ≠ "") [clean_text x] = [clean_text x] by
    simp [List.filter, hne]]
  simp [List.flatMap]

theorem splitSentences_ne_nil (s : String) : splitSentences s ≠ [] := by
  unfold splitSentences
  simp only [Ne, List.map_eq_nil_iff]
  exact sentGo_ne_nil s.data false []

theorem splitSentences_trimmedNE (s : String) (hne : s ≠ "")
    (hh : headNonWs s.data) (hl : lastNonWs s.data) :
    ∀ t ∈ splitSentences s, trimmedNE t := by
  intro t ht
  unfold splitSentences at ht
  rw [List.mem_map] at ht
  obtain ⟨piece, hpmem, hpe⟩ := ht
  have hp := sentGo_pieces s.data false [] hl (fun d hd => by cases hd)
    (fun _ _ => hh) (fun hd => absurd hd (data_ne_nil_of_ne_empty hne))
    (fun _ d hd => by cases hd) piece hpmem
  subst hpe
  refine ⟨?_, hp.2.1, hp.2.2⟩
  intro he
  exact hp.1 (congrArg String.data he)

theorem processedParagraphs_trimmedNE (x : String) :
    ∀ p ∈ processedParagraphs (clean_text x), trimmedNE p := by
  by_cases hne : clean_text x = ""
  · rw [hne]
    intro p hp
    exact absurd hp (List.not_mem_nil p)
  · rw [processedParagraphs_clean x hne]
    split
    · exact groupSent_mem _ (splitSentences_trimmedNE (clean_text x) hne
        (clean_text_headNonWs x) (clean_text_lastNonWs x))
    · intro p hp
      rw [List.mem_singleton] at hp
      exact hp ▸ ⟨hne, clean_text_headNonWs x, clean_text_lastNonWs x⟩

/-- The segments join back to the cleaned text, provided the cleaned text
has no adjacent whitespace (the sentence separator would otherwise swallow
a multi-space run and re-join with a single space). -/
theorem processedParagraphs_join (x : String)
    (hadj : noAdjWs (clean_text x).data = true) :
    jsp (processedParagraphs (clean_text x)) = clean_text x := by
  by_cases hne : clean_text x = ""
  · rw [hne]
    rfl
  · rw [processedParagraphs_clean x hne]
    split
    · rw [groupSent_cover _ (splitSentences_trimmedNE (clean_text x) hne
        (clean_text_headNonWs x) (clean_text_lastNonWs x)) (splitSentences_ne_nil _)]
      exact splitSentences_join (clean_text x) hadj (clean_text_ws_space x)
    · rfl

/-! The C4 verdict -/

/-- C4 counterexample: full-pipeline coverage fails.  A short document
survives normalization but `post_process_chunks` drops its single
undersized chunk, so the pipeline returns no chunks at all and their
concatenation cannot reproduce the normalized text. -/
theorem coverage_cex :
    split_text_semantically "Coverage fails for short documents." = [] ∧
    clean_text "Coverage fails for short documents." ≠ "" :=
  ⟨by decide, by decide⟩

/-- C4 amended: coverage holds for the assembly stage (before
post-processing), which is where the spec's non-overlap decomposition
lives: every chunk assembled is the trimmed join of an overlap seed and a
fresh part, and the fresh parts, joined with the single spaces the
assembler inserts, reproduce the segmented text — and the normalized text
itself whenever it contains no adjacent whitespace.  Full-pipeline
coverage fails because `post_process_chunks` deletes undersized-first and
oversized chunks (see the counterexample). -/
theorem assembly_coverage (x : String)
    (hadj : noAdjWs (clean_text x).data = true) :
    (assembleGo overlapTokens (processedParagraphs (clean_text x)) "" 0 [] =
      (assemblePartsGo overlapTokens (processedParagraphs (clean_text x))
        none "" 0 []).map chunkOf) ∧
    jsp ((assemblePartsGo overlapTokens (processedParagraphs (clean_text x))
        none "" 0 []).map Prod.snd) = clean_text x := by
  constructor
  · have h := assembleGo_eq_parts overlapTokens (processedParagraphs (clean_text x))
      none "" 0 []
    simpa using h
  · rw [assembleParts_cover _ _
      (fun p hp => trimmedNE_hasNonWs (processedParagraphs_trimmedNE x p hp))]
    exact processedParagraphs_join x hadj

theorem assembly_coverage_witness :
    noAdjWs (clean_text "Aa bb. Cc dd.").data = true ∧
    jsp ((assemblePartsGo overlapTokens
        (processedParagraphs (clean_text "Aa bb. Cc dd.")) none "" 0 []).map
      Prod.snd) = clean_text "Aa bb. Cc dd." :=
  ⟨by decide, (assembly_coverage "Aa bb. Cc dd." (by decide)).2⟩

end AIGrading
